import Mathlib

/-!
Shallow embedding of `thpool.c` (Johan Hanssen Seferidis' thread pool).

The job queue is a doubly linked list of `thpool_job_t` nodes:
`head` is the newest end, `tail` the oldest end; `next` points from a
newer node towards an older one (head → tail), `prev` the other way.
We model the C heap as a partial map from addresses (`Nat`) to job
nodes, and every pointer dereference as an `Option` bind: `none` marks
the executions on which the C code would dereference a null or dangling
pointer.  The payload of a job (the C `function` and `arg` pointers) is
an opaque type parameter `α`.
-/

namespace Thpool

/-- The C struct `thpool_job_t`: a function pointer, its argument and the
`prev`/`next` links of the doubly linked queue (null = `none`). -/
structure thpool_job_t (α : Type) where
  function : α
  arg : α
  prev : Option Nat
  next : Option Nat
  deriving Repr, DecidableEq

/-- The C heap, restricted to job nodes: a partial map from addresses to
allocated `thpool_job_t` records. -/
def Heap (α : Type) := Nat → Option (thpool_job_t α)

/-- Store a node at address `a` (a C assignment through a pointer, or the
result of a `malloc` at a fresh address). -/
def heapUpdate (h : Heap α) (a : Nat) (j : thpool_job_t α) : Heap α :=
  fun b => if b = a then some j else h b

/-- `free(a)`: the address is no longer allocated. -/
def heapFree (h : Heap α) (a : Nat) : Heap α :=
  fun b => if b = a then none else h b

/-- The C struct `thpool_jobqueue`: pointers to the oldest (`tail`) and
newest (`head`) job and the job count `jobsN` (a C `int`, modelled as an
unbounded `Int`). -/
structure thpool_jobqueue where
  head : Option Nat
  tail : Option Nat
  jobsN : Int
  deriving Repr, DecidableEq

/-- A queue state: the job heap together with the `thpool_jobqueue`
struct.  This is the state every job-queue operation reads and writes. -/
structure QState (α : Type) where
  heap : Heap α
  queue : thpool_jobqueue

/-- `thpool_jobqueue_init` (thpool.c:183-191), the part that fills in the
freshly allocated struct: `tail=NULL; head=NULL; jobsN=0`. -/
def thpool_jobqueue_init : thpool_jobqueue :=
  { head := none, tail := none, jobsN := 0 }

/-- `thpool_jobqueue_add` (thpool.c:195-217).  `newjob_p` is the address
of the caller-allocated job.  The code clears the new job's links, then
switches on `jobsN`: case 0 makes the job both head and tail, the default
case links it in front of the old head; finally `jobsN` is incremented.
Returns `none` when a dereference (of `newjob_p`, or of a null `head` in
the default case) would fault. -/
def thpool_jobqueue_add (s : QState α) (newjob_p : Nat) : Option (QState α) := do
  let nj ← s.heap newjob_p
  let h0 := heapUpdate s.heap newjob_p { nj with next := none, prev := none }
  let oldFirstJob := s.queue.head
  if s.queue.jobsN = 0 then
    some { heap := h0,
           queue := { head := some newjob_p, tail := some newjob_p,
                      jobsN := s.queue.jobsN + 1 } }
  else do
    let ofAddr ← oldFirstJob
    let ofJob ← h0 ofAddr
    let h1 := heapUpdate h0 ofAddr { ofJob with prev := some newjob_p }
    let nj1 ← h1 newjob_p
    let h2 := heapUpdate h1 newjob_p { nj1 with next := oldFirstJob }
    some { heap := h2,
           queue := { head := some newjob_p, tail := s.queue.tail,
                      jobsN := s.queue.jobsN + 1 } }

/-- `thpool_jobqueue_removelast` (thpool.c:221-247).  Switches on `jobsN`:
case 0 returns -1 and changes nothing; case 1 nulls both ends; the default
case nulls the `next` link of the second-oldest node and makes it the new
tail.  On the non-empty cases `jobsN` is decremented and 0 is returned.
The removed node is not freed here (the caller frees it).  `none` marks a
faulting dereference on ill-formed states. -/
def thpool_jobqueue_removelast (s : QState α) : Option (Int × QState α) :=
  let oldLastJob := s.queue.tail
  if s.queue.jobsN = 0 then
    some (-1, s)
  else if s.queue.jobsN = 1 then
    some (0, { s with queue := { head := none, tail := none,
                                 jobsN := s.queue.jobsN - 1 } })
  else do
    let olAddr ← oldLastJob
    let olJob ← s.heap olAddr
    let prevAddr ← olJob.prev
    let pJob ← s.heap prevAddr
    let h1 := heapUpdate s.heap prevAddr { pJob with next := none }
    some (0, { heap := h1,
               queue := { head := s.queue.head, tail := olJob.prev,
                          jobsN := s.queue.jobsN - 1 } })

/-- `thpool_jobqueue_peek` (thpool.c:251-254): returns the tail pointer. -/
def thpool_jobqueue_peek (s : QState α) : Option Nat :=
  s.queue.tail

/-- The loop of `thpool_jobqueue_empty` (thpool.c:262-267):
`while (jobsN) { tail = curjob->prev; free(curjob); curjob = tail; jobsN--; }`.
`fuel` bounds the iteration count; running out of fuel (`none`) models the
divergence the C loop exhibits when `jobsN` never reaches 0.  Returns the
final heap, `tail` and `jobsN`. -/
def thpool_jobqueue_empty_loop (fuel : Nat) (h : Heap α) (tl : Option Nat)
    (jobsN : Int) (curjob : Option Nat) :
    Option (Heap α × Option Nat × Int) :=
  if jobsN = 0 then some (h, tl, jobsN)
  else
    match fuel with
    | 0 => none
    | fuel + 1 => do
      let cAddr ← curjob
      let cJob ← h cAddr
      let tl1 : Option Nat := cJob.prev
      let h1 := heapFree h cAddr
      thpool_jobqueue_empty_loop fuel h1 tl1 (jobsN - 1) tl1

/-- `thpool_jobqueue_empty` (thpool.c:257-272): walks from the tail
towards the head freeing every node, then sets `tail` and `head` to null.
The fuel `s.queue.jobsN.toNat` is exactly the number of iterations the C
loop performs when `jobsN` is the length of the chain. -/
def thpool_jobqueue_empty (s : QState α) : Option (QState α) := do
  let curjob := s.queue.tail
  let r ← thpool_jobqueue_empty_loop s.queue.jobsN.toNat s.heap
            s.queue.tail s.queue.jobsN curjob
  some { heap := r.1,
         queue := { head := none, tail := none, jobsN := r.2.2 } }

/-!
## Well-formedness of the queue

`addrs` lists the addresses of the linked nodes from `head` (newest) to
`tail` (oldest).  `chainFrom h prevA addrs` checks that the nodes are all
allocated and doubly linked: the first node's `prev` is `prevA`, each
node's `next` is the following address (and `none` for the last one).
-/

/-- The address a node's `next` must hold, given the rest of the chain
after it and the expected `next` of the chain's last node. -/
def nextLink (rest : List Nat) (nextZ : Option Nat) : Option Nat :=
  match rest with
  | [] => nextZ
  | b :: _ => some b

/-- The address the first node of a suffix must hold in `prev`, given the
list before it and the expected `prev` of the chain's first node. -/
def lastLink (ys : List Nat) (p : Option Nat) : Option Nat :=
  match ys.getLast? with
  | none => p
  | some y => some y

/-- The doubly linked chain check for a segment, head to tail: the first
node's `prev` is `prevA` and the last node's `next` is `nextZ`. -/
def chainSeg (h : Heap α) : Option Nat → List Nat → Option Nat → Bool
  | _, [], _ => true
  | prevA, a :: rest, nextZ =>
    match h a with
    | none => false
    | some j =>
      j.prev == prevA &&
      j.next == nextLink rest nextZ &&
      chainSeg h (some a) rest nextZ

/-- The full chain check, head to tail: first `prev` and last `next` are
both null. -/
def chainFrom (h : Heap α) (prevA : Option Nat) (addrs : List Nat) : Bool :=
  chainSeg h prevA addrs none

/-- Well-formedness of a queue state: `addrs` is the chain of linked
nodes from `head` to `tail`, the addresses are distinct, the struct's
`head`/`tail` pointers are the two ends, and `jobsN` is the chain
length. -/
def WFq (s : QState α) (addrs : List Nat) : Prop :=
  chainFrom s.heap none addrs = true ∧
  s.queue.head = addrs.head? ∧
  s.queue.tail = addrs.getLast? ∧
  s.queue.jobsN = (addrs.length : Int) ∧
  addrs.Nodup

instance (s : QState α) (addrs : List Nat) : Decidable (WFq s addrs) := by
  unfold WFq; infer_instance

/-- The queue invariant of the spec: some address list witnesses
well-formedness. -/
def queueInvariant (s : QState α) : Prop :=
  ∃ addrs, WFq s addrs

/-!
## Traces of enqueue/dequeue operations

`thpool_add_work` (thpool.c:117-139) mallocs a job, fills in `function`
and `arg`, and (under the mutex) calls `thpool_jobqueue_add`.  A worker
(thpool.c:96-107, under the mutex) peeks the tail job, copies out its
`function` and `arg`, calls `thpool_jobqueue_removelast`, and later frees
the job.  Since the mutex makes the critical sections atomic, any
concurrent execution is a sequence of these two atomic queue operations;
`runOps` runs such a sequence.  Fresh malloc addresses come from a
counter `nextAddr`.
-/

/-- A queue state with a malloc allocator: fresh addresses are handed out
in increasing order. -/
structure RunState (α : Type) where
  qs : QState α
  nextAddr : Nat

/-- The lines of `thpool_add_work` that touch the queue: malloc a job at
a fresh address, set `newJob->function` and `newJob->arg`, then
`thpool_jobqueue_add`. -/
def enqOp (rs : RunState α) (function_p arg_p : α) : Option (RunState α) := do
  let newAddr := rs.nextAddr
  let h0 := heapUpdate rs.qs.heap newAddr
      { function := function_p, arg := arg_p, prev := none, next := none }
  let s1 ← thpool_jobqueue_add { heap := h0, queue := rs.qs.queue } newAddr
  some { qs := s1, nextAddr := newAddr + 1 }

/-- The worker's critical section plus the final `free(job_p)`
(thpool.c:96-107): peek the tail, dereference it to copy `function` and
`arg` (faulting if the queue is empty: the worker has no null check),
remove the last job, free it.  Returns the payload handed to the worker. -/
def deqOp (s : QState α) : Option ((α × α) × QState α) := do
  let job_p ← thpool_jobqueue_peek s
  let j ← s.heap job_p
  let func_buff := j.function
  let arg_buff := j.arg
  let r ← thpool_jobqueue_removelast s
  let s1 := r.2
  some ((func_buff, arg_buff),
        { heap := heapFree s1.heap job_p, queue := s1.queue })

/-- One queue operation of a trace: an enqueue with its payload, or a
worker dequeue. -/
inductive Op (α : Type) where
  | enq (function_p arg_p : α)
  | deq
  deriving Repr, DecidableEq

/-- Run a sequence of queue operations; collect the payloads the
dequeues handed to workers, in order.  `none` if any operation faults. -/
def runOps : List (Op α) → RunState α → Option (List (α × α) × RunState α)
  | [], rs => some ([], rs)
  | Op.enq f a :: ops, rs => do
      let rs1 ← enqOp rs f a
      runOps ops rs1
  | Op.deq :: ops, rs => do
      let r ← deqOp rs.qs
      let rest ← runOps ops { qs := r.2, nextAddr := rs.nextAddr }
      some (r.1 :: rest.1, rest.2)

/-- The payloads enqueued by a trace, in submission order. -/
def enqueuedList : List (Op α) → List (α × α)
  | [] => []
  | Op.enq f a :: ops => (f, a) :: enqueuedList ops
  | Op.deq :: ops => enqueuedList ops

/-- The initial run state: empty heap, freshly initialised queue
(`thpool_jobqueue_init`), allocator at 0. -/
def initRunState (α : Type) : RunState α :=
  { qs := { heap := fun _ => none, queue := thpool_jobqueue_init },
    nextAddr := 0 }

/-- The payload (`function`, `arg`) stored at address `a`, if allocated. -/
def payloadAt (h : Heap α) (a : Nat) : Option (α × α) :=
  (h a).map (fun j => (j.function, j.arg))

/-- The pending jobs of a well-formed state, oldest first: the payloads
along the chain read from the tail end. -/
def pendingOldestFirst (h : Heap α) (addrs : List Nat) : List (α × α) :=
  addrs.reverse.filterMap (payloadAt h)

/-- Well-formedness of a run state: the queue is well-formed on `addrs`
and every linked address was handed out by the allocator, so the next
malloc result is fresh. -/
def WFrun (rs : RunState α) (addrs : List Nat) : Prop :=
  WFq rs.qs addrs ∧ ∀ a ∈ addrs, a < rs.nextAddr

/-!
## The pool: `thpool_init`, the worker loop, `thpool_add_work`

`thpool_init` (thpool.c:32-75) performs three fallible heap allocations
(the `thpool_t` struct, the `threads` array, and — inside
`thpool_jobqueue_init` — the `thpool_jobqueue` struct), initialises the
three semaphores and spawns the worker threads.  We model each `malloc`
outcome as a boolean parameter and track the live heap blocks in a
ledger, so that the free-on-failure behaviour is observable.
-/

/-- The three heap blocks `thpool_init` allocates. -/
inductive CPtr where
  | pool
  | threadsArr
  | jobqueueMem
  deriving Repr, DecidableEq

/-- The allocation ledger: which of the blocks are currently live. -/
structure Ledger where
  live : List CPtr
  deriving Repr, DecidableEq

/-- A successful `malloc` of block `p`. -/
def lmalloc (L : Ledger) (p : CPtr) : Ledger := ⟨p :: L.live⟩

/-- `free(p)`. -/
def lfree (L : Ledger) (p : CPtr) : Ledger := ⟨L.live.erase p⟩

/-- The C struct `thpool_t`: the thread-handle array, the thread count,
the job queue pointer's target, and the three semaphores (modelled by
their counter values). -/
structure thpool_t where
  threads : List Nat
  threadsN : Int
  jobqueue : thpool_jobqueue
  mutex : Int
  nEmpty : Int
  nStored : Int
  deriving Repr, DecidableEq

/-- `thpool_jobqueue_init` (thpool.c:183-191) as called by `thpool_init`:
mallocs the `thpool_jobqueue` struct (on failure the function returns -1
and nothing was allocated), then nulls `tail` and `head` and zeroes
`jobsN`. -/
def thpool_jobqueue_init_call (okQueue : Bool) (L : Ledger) :
    Option thpool_jobqueue × Ledger :=
  if okQueue then (some thpool_jobqueue_init, lmalloc L CPtr.jobqueueMem)
  else (none, L)

/-- The `for (t=0; t<threadsN; t++) pthread_create(...)` loop of
`thpool_init` (thpool.c:66-72), returning the slots it spawned into. -/
def spawnLoop (threadsN : Nat) (t : Nat) : List Nat :=
  if t < threadsN then t :: spawnLoop threadsN (t + 1) else []
termination_by threadsN - t

/-- `thpool_init` (thpool.c:32-75).  Clamps `threadsN` via
`if (!threadsN || threadsN<1) threadsN=1;`, then mallocs the pool struct
(NULL → return NULL), the thread-ID array (NULL → `free(tp_p)`, return
NULL), calls `thpool_jobqueue_init` (-1 → `free(tp_p->threads)`,
`free(tp_p)`, return NULL), initialises the semaphores to 1, `threadsN`
and 0, and spawns the workers.  The ledger records which heap blocks are
live afterwards. -/
def thpool_init (threadsN : Int) (okPool okThreads okQueue : Bool)
    (L : Ledger) : Option thpool_t × Ledger :=
  let threadsN := if threadsN = 0 ∨ threadsN < 1 then (1 : Int) else threadsN
  if okPool = false then (none, L)
  else
    let L1 := lmalloc L CPtr.pool
    if okThreads = false then (none, lfree L1 CPtr.pool)
    else
      let L2 := lmalloc L1 CPtr.threadsArr
      match thpool_jobqueue_init_call okQueue L2 with
      | (none, L3) => (none, lfree (lfree L3 CPtr.threadsArr) CPtr.pool)
      | (some jq, L3) =>
        (some { threads := spawnLoop threadsN.toNat 0,
                threadsN := threadsN,
                jobqueue := jq,
                mutex := 1,
                nEmpty := threadsN,
                nStored := 0 }, L3)

/-- Events a worker emits: `waited` when `sem_wait(&tp_p->nStored)`
returns, `ranJob f a` when `func_buff(arg_buff)` is called. -/
inductive WEv (α : Type) where
  | waited
  | ranJob (function arg : α)
  deriving Repr, DecidableEq

/-- The `while (thpool_keepalive)` loop of `thpool_thread_do`
(thpool.c:84-109).  `ka i` is the value the i-th read of the global
`thpool_keepalive` flag observes (the loop condition and the re-check
after `sem_wait` are successive reads).  Each iteration: if the loop
condition reads false the loop exits; otherwise `sem_wait` returns (a
failing `sem_wait` calls `exit(1)` and is not modelled here), the flag is
re-read, and only if it is still true does the worker lock the mutex,
peek, copy the payload, remove the last job, unlock, post `nEmpty`, run
the job and free it (`deqOp`).  `fuel` bounds the iterations; `none`
models divergence or a faulting dequeue. -/
def thpool_thread_do_loop (ka : Nat → Bool) :
    Nat → Nat → QState α → Option (List (WEv α) × QState α)
  | 0, i, s => if ka i = false then some ([], s) else none
  | fuel + 1, i, s =>
    if ka i = false then some ([], s)
    else if ka (i + 1) = false then
      (thpool_thread_do_loop ka fuel (i + 2) s).map
        (fun r => (WEv.waited :: r.1, r.2))
    else
      match deqOp s with
      | none => none
      | some ((f, a), s1) =>
        (thpool_thread_do_loop ka fuel (i + 2) s1).map
          (fun r => (WEv.waited :: WEv.ranJob f a :: r.1, r.2))

/-- How a call of `thpool_add_work` ends: a value returned to the caller,
or `exit(status)`. -/
inductive AddWorkOutcome (α : Type) where
  | returned (code : Int) (rs : RunState α)
  | exited (status : Int)

/-- `thpool_add_work` (thpool.c:117-139): malloc the job (on NULL, print
a diagnostic and `exit(1)`); otherwise set its `function` and `arg`,
wait on `nEmpty` and the mutex, `thpool_jobqueue_add`, post the mutex and
`nStored`, and `return 0`. -/
def thpool_add_work (rs : RunState α) (function_p arg_p : α)
    (mallocOk : Bool) : Option (AddWorkOutcome α) :=
  if mallocOk = false then some (AddWorkOutcome.exited 1)
  else (enqOp rs function_p arg_p).map (fun rs1 => AddWorkOutcome.returned 0 rs1)

/-!
## Lemmas about chain segments
-/

theorem chainSeg_heapUpdate_of_not_mem (h : Heap α) (b : Nat) (j : thpool_job_t α)
    (p w : Option Nat) (addrs : List Nat) (hb : b ∉ addrs) :
    chainSeg (heapUpdate h b j) p addrs w = chainSeg h p addrs w := by
  induction addrs generalizing p with
  | nil => rfl
  | cons a rest ih =>
    have hab : (a = b) = False := by
      simp only [eq_iff_iff, iff_false]
      exact fun e => hb (e ▸ List.mem_cons_self a rest)
    have hrest : b ∉ rest := fun m => hb (List.mem_cons_of_mem a m)
    simp only [chainSeg, heapUpdate, hab, if_false]
    cases h a with
    | none => rfl
    | some ja => rw [ih (some a) hrest]

theorem chainSeg_heapFree_of_not_mem (h : Heap α) (b : Nat)
    (p w : Option Nat) (addrs : List Nat) (hb : b ∉ addrs) :
    chainSeg (heapFree h b) p addrs w = chainSeg h p addrs w := by
  induction addrs generalizing p with
  | nil => rfl
  | cons a rest ih =>
    have hab : (a = b) = False := by
      simp only [eq_iff_iff, iff_false]
      exact fun e => hb (e ▸ List.mem_cons_self a rest)
    have hrest : b ∉ rest := fun m => hb (List.mem_cons_of_mem a m)
    simp only [chainSeg, heapFree, hab, if_false]
    cases h a with
    | none => rfl
    | some ja => rw [ih (some a) hrest]

theorem chainSeg_append (h : Heap α) (p w : Option Nat) (ys zs : List Nat) :
    chainSeg h p (ys ++ zs) w =
      (chainSeg h p ys (nextLink zs w) && chainSeg h (lastLink ys p) zs w) := by
  induction ys generalizing p with
  | nil => simp [chainSeg, lastLink]
  | cons a rest ih =>
    cases hha : h a with
    | none => simp [chainSeg, hha]
    | some ja =>
      simp only [List.cons_append, chainSeg, hha, List.append_eq]
      rw [ih (some a)]
      cases rest with
      | nil =>
        cases zs with
        | nil => simp [chainSeg, nextLink, lastLink, Bool.and_assoc]
        | cons b zs' => simp [chainSeg, nextLink, lastLink, Bool.and_assoc]
      | cons r rest' =>
        simp only [List.cons_append, nextLink, lastLink,
          List.getLast?_cons_cons, Bool.and_assoc]
        cases hgl : (r :: rest').getLast? with
        | none => simp at hgl
        | some y => simp [hgl]

theorem chainSeg_cons_elim {h : Heap α} {p w : Option Nat} {a : Nat}
    {rest : List Nat} (hc : chainSeg h p (a :: rest) w = true) :
    ∃ j, h a = some j ∧ j.prev = p ∧ j.next = nextLink rest w ∧
      chainSeg h (some a) rest w = true := by
  cases hha : h a with
  | none => simp [chainSeg, hha] at hc
  | some j =>
    simp only [chainSeg, hha, Bool.and_eq_true, beq_iff_eq] at hc
    exact ⟨j, rfl, hc.1.1, hc.1.2, hc.2⟩

theorem payloadAt_heapUpdate_of_ne {h : Heap α} {a b : Nat}
    (j : thpool_job_t α) (hne : a ≠ b) :
    payloadAt (heapUpdate h b j) a = payloadAt h a := by
  simp [payloadAt, heapUpdate, hne]

theorem payloadAt_heapFree_of_ne {h : Heap α} {a b : Nat} (hne : a ≠ b) :
    payloadAt (heapFree h b) a = payloadAt h a := by
  simp [payloadAt, heapFree, hne]

theorem pendingOldestFirst_congr {h h' : Heap α} {addrs : List Nat}
    (hp : ∀ a ∈ addrs, payloadAt h' a = payloadAt h a) :
    pendingOldestFirst h' addrs = pendingOldestFirst h addrs := by
  unfold pendingOldestFirst
  exact List.filterMap_congr (fun a ha => hp a (List.mem_reverse.mp ha))

/-!
## Specification of the queue operations on well-formed states
-/

theorem thpool_jobqueue_add_spec (s : QState α) (addrs : List Nat) (np : Nat)
    (nj : thpool_job_t α) (hWF : WFq s addrs) (hnj : s.heap np = some nj)
    (hfresh : np ∉ addrs) :
    ∃ s', thpool_jobqueue_add s np = some s' ∧
      WFq s' (np :: addrs) ∧
      s'.queue.jobsN = s.queue.jobsN + 1 ∧
      payloadAt s'.heap np = some (nj.function, nj.arg) ∧
      (∀ a ∈ addrs, payloadAt s'.heap a = payloadAt s.heap a) := by
  obtain ⟨hchain, hhead, htail, hlen, hnodup⟩ := hWF
  cases addrs with
  | nil =>
    have hN : s.queue.jobsN = 0 := by simpa using hlen
    refine ⟨⟨heapUpdate s.heap np { nj with next := none, prev := none },
            ⟨some np, some np, s.queue.jobsN + 1⟩⟩, ?_, ?_, rfl, ?_, ?_⟩
    · simp [thpool_jobqueue_add, hnj, hN]
    · refine ⟨?_, rfl, rfl, by simp [hN], by simp⟩
      simp [chainFrom, chainSeg, heapUpdate, nextLink]
    · simp [payloadAt, heapUpdate]
    · intro a ha; simp at ha
  | cons a0 rest =>
    have hN : s.queue.jobsN ≠ 0 := by
      rw [hlen]; simp only [List.length_cons]; push_cast; omega
    have ha0np : a0 ≠ np := fun e => hfresh (e ▸ List.mem_cons_self a0 rest)
    have hnprest : np ∉ rest := fun m => hfresh (List.mem_cons_of_mem a0 m)
    have ha0rest : a0 ∉ rest := (List.nodup_cons.mp hnodup).1
    obtain ⟨j0, hj0, hj0prev, hj0next, hchain0⟩ := chainSeg_cons_elim hchain
    have hh0a0 : heapUpdate s.heap np { nj with next := none, prev := none } a0
        = some j0 := by
      simp [heapUpdate, ha0np, hj0]
    have hh1np : heapUpdate (heapUpdate s.heap np
          { nj with next := none, prev := none }) a0
          { j0 with prev := some np } np
        = some { nj with next := none, prev := none } := by
      simp [heapUpdate, Ne.symm ha0np]
    refine ⟨⟨heapUpdate (heapUpdate (heapUpdate s.heap np
              { nj with next := none, prev := none }) a0
              { j0 with prev := some np }) np
              { nj with prev := none, next := some a0 },
            ⟨some np, s.queue.tail, s.queue.jobsN + 1⟩⟩, ?_, ?_, rfl, ?_, ?_⟩
    · simp only [thpool_jobqueue_add, hnj, hhead, Option.bind_eq_bind,
        Option.some_bind, if_neg hN, List.head?_cons, hh0a0, hh1np]
    · have hnp2 : heapUpdate (heapUpdate (heapUpdate s.heap np
              { nj with next := none, prev := none }) a0
              { j0 with prev := some np }) np
              { nj with prev := none, next := some a0 } np
          = some { nj with prev := none, next := some a0 } := by
        simp [heapUpdate]
      have ha02 : heapUpdate (heapUpdate (heapUpdate s.heap np
              { nj with next := none, prev := none }) a0
              { j0 with prev := some np }) np
              { nj with prev := none, next := some a0 } a0
          = some { j0 with prev := some np } := by
        simp [heapUpdate, ha0np]
      refine ⟨?_, rfl, ?_, ?_, ?_⟩
      · show chainSeg _ none (np :: a0 :: rest) none = true
        have hrest2 : chainSeg (heapUpdate (heapUpdate (heapUpdate s.heap np
              { nj with next := none, prev := none }) a0
              { j0 with prev := some np }) np
              { nj with prev := none, next := some a0 }) (some a0) rest none
            = true := by
          rw [chainSeg_heapUpdate_of_not_mem _ _ _ _ _ _ hnprest,
              chainSeg_heapUpdate_of_not_mem _ _ _ _ _ _ ha0rest,
              chainSeg_heapUpdate_of_not_mem _ _ _ _ _ _ hnprest]
          exact hchain0
        simp only [chainSeg, hnp2, ha02, hrest2]
        simp [hj0next, nextLink]
      · simpa using htail
      · show s.queue.jobsN + 1 = ((np :: a0 :: rest).length : Int)
        rw [hlen]; simp only [List.length_cons]; push_cast; omega
      · exact List.nodup_cons.mpr ⟨hfresh, hnodup⟩
    · simp [payloadAt, heapUpdate]
    · intro a ha
      rcases List.mem_cons.mp ha with rfl | harest
      · rw [payloadAt_heapUpdate_of_ne _ ha0np]
        simp [payloadAt, heapUpdate, hj0]
      · have hanp : a ≠ np := fun e => hnprest (e ▸ harest)
        have haa0 : a ≠ a0 := fun e => ha0rest (e ▸ harest)
        rw [payloadAt_heapUpdate_of_ne _ hanp,
            payloadAt_heapUpdate_of_ne _ haa0,
            payloadAt_heapUpdate_of_ne _ hanp]

theorem thpool_jobqueue_removelast_spec (s : QState α) (addrs : List Nat)
    (hWF : WFq s addrs) :
    (addrs = [] → thpool_jobqueue_removelast s = some (-1, s)) ∧
    (addrs ≠ [] → ∃ s', thpool_jobqueue_removelast s = some (0, s') ∧
      WFq s' addrs.dropLast ∧
      s'.queue.jobsN = s.queue.jobsN - 1 ∧
      (∀ a, payloadAt s'.heap a = payloadAt s.heap a)) := by
  obtain ⟨hchain, hhead, htail, hlen, hnodup⟩ := hWF
  constructor
  · rintro rfl
    have hN : s.queue.jobsN = 0 := by simpa using hlen
    simp [thpool_jobqueue_removelast, hN]
  · intro hne
    rcases List.eq_nil_or_concat addrs with rfl | ⟨ys, z, rfl⟩
    · exact absurd rfl hne
    rcases List.eq_nil_or_concat ys with rfl | ⟨ys', y, rfl⟩
    · -- the queue holds the single job `z`
      simp only [List.concat_eq_append, List.nil_append] at hchain hhead htail hlen hnodup hne ⊢
      have hN : s.queue.jobsN = 1 := by simpa using hlen
      refine ⟨⟨s.heap, ⟨none, none, s.queue.jobsN - 1⟩⟩, ?_, ?_, rfl, ?_⟩
      · simp [thpool_jobqueue_removelast, hN]
      · simp only [List.dropLast_single]
        exact ⟨rfl, rfl, rfl, by simp [hN], by simp⟩
      · intro a; rfl
    · -- at least two jobs: `ys' ++ [y] ++ [z]`, `z` oldest, `y` second oldest
      simp only [List.concat_eq_append] at hchain hhead htail hlen hnodup hne ⊢
      have hN0 : s.queue.jobsN ≠ 0 := by
        rw [hlen]; simp only [List.length_append, List.length_cons,
          List.length_nil]; push_cast; omega
      have hN1 : s.queue.jobsN ≠ 1 := by
        rw [hlen]; simp only [List.length_append, List.length_cons,
          List.length_nil]; push_cast; omega
      have htailz : s.queue.tail = some z := by
        rw [htail, List.getLast?_concat]
      rw [chainFrom, chainSeg_append, Bool.and_eq_true] at hchain
      obtain ⟨hA, hB⟩ := hchain
      have hlastyy : lastLink (ys' ++ [y]) none = some y := by
        simp [lastLink, List.getLast?_concat]
      obtain ⟨jz, hjz, hjzprev, hjznext, -⟩ := chainSeg_cons_elim hB
      rw [hlastyy] at hjzprev
      rw [chainSeg_append, Bool.and_eq_true] at hA
      obtain ⟨hA1, hA2⟩ := hA
      obtain ⟨jy, hjy, hjyprev, hjynext, -⟩ := chainSeg_cons_elim hA2
      have hynotys : y ∉ ys' := by
        have : (ys' ++ [y]).Nodup :=
          ((List.sublist_append_left (ys' ++ [y]) [z]).nodup hnodup)
        rw [List.nodup_append] at this
        intro hmem
        exact this.2.2 hmem (List.mem_singleton_self y)
      refine ⟨⟨heapUpdate s.heap y { jy with next := none },
              ⟨s.queue.head, some y, s.queue.jobsN - 1⟩⟩, ?_, ?_, rfl, ?_⟩
      · simp [thpool_jobqueue_removelast, hN0, hN1, htailz, hjz, hjzprev, hjy]
      · rw [List.dropLast_concat]
        refine ⟨?_, ?_, ?_, ?_, ?_⟩
        · rw [chainFrom, chainSeg_append, Bool.and_eq_true]
          constructor
          · rw [chainSeg_heapUpdate_of_not_mem _ _ _ _ _ _ hynotys]
            simpa [nextLink] using hA1
          · simp [chainSeg, heapUpdate, hjyprev, nextLink]
        · show s.queue.head = (ys' ++ [y]).head?
          rw [hhead]
          cases ys' with
          | nil => simp
          | cons u us => simp
        · show (some y : Option Nat) = (ys' ++ [y]).getLast?
          rw [List.getLast?_concat]
        · show s.queue.jobsN - 1 = ((ys' ++ [y]).length : Int)
          rw [hlen]; simp only [List.length_append, List.length_cons,
            List.length_nil]; push_cast; omega
        · exact (List.sublist_append_left (ys' ++ [y]) [z]).nodup hnodup
      · intro a
        by_cases hay : a = y
        · subst hay
          simp [payloadAt, heapUpdate, hjy]
        · exact payloadAt_heapUpdate_of_ne _ hay

theorem lastLink_none (ys : List Nat) : lastLink ys none = ys.getLast? := by
  unfold lastLink
  cases ys.getLast? <;> rfl

theorem thpool_jobqueue_empty_loop_spec (ys : List Nat) :
    ∀ (h : Heap α) (w tl : Option Nat),
      chainSeg h none ys w = true → ys.Nodup →
      ∃ hF tlF,
        thpool_jobqueue_empty_loop ys.length h tl (ys.length : Int)
            ys.getLast? = some (hF, tlF, 0) ∧
        (∀ a ∈ ys, hF a = none) ∧
        (∀ a, a ∉ ys → hF a = h a) := by
  induction ys using List.reverseRecOn with
  | nil =>
    intro h w tl _ _
    exact ⟨h, tl, rfl, by simp, fun a _ => rfl⟩
  | append_singleton ys' z ih =>
    intro h w tl hchain hnodup
    rw [chainSeg_append, Bool.and_eq_true] at hchain
    obtain ⟨hA, hB⟩ := hchain
    rw [lastLink_none] at hB
    obtain ⟨jz, hjz, hjzprev, hjznext, -⟩ := chainSeg_cons_elim hB
    have hznotys : z ∉ ys' := by
      rw [List.nodup_append] at hnodup
      intro hmem
      exact hnodup.2.2 hmem (List.mem_singleton_self z)
    have hA1 : chainSeg (heapFree h z) none ys' (some z) = true := by
      rw [chainSeg_heapFree_of_not_mem _ _ _ _ _ hznotys]
      simpa [nextLink] using hA
    have hnodup' : ys'.Nodup := ((List.sublist_append_left ys' [z]).nodup hnodup)
    obtain ⟨hF, tlF, hloop, hmem, hnotmem⟩ :=
      ih (heapFree h z) (some z) ys'.getLast? hA1 hnodup'
    refine ⟨hF, tlF, ?_, ?_, ?_⟩
    · rw [thpool_jobqueue_empty_loop.eq_def]
      rw [if_neg (show ¬(((ys' ++ [z]).length : Nat) : Int) = 0 by
        simp only [List.length_append, List.length_cons, List.length_nil]
        push_cast; omega)]
      simp only [List.length_append, List.length_cons, List.length_nil,
        Nat.zero_add, List.getLast?_concat, Option.bind_eq_bind,
        Option.some_bind, hjz, hjzprev]
      have harith : ((ys'.length + 1 : Nat) : Int) - 1 = (ys'.length : Int) := by
        push_cast; omega
      rw [harith]
      exact hloop
    · intro a ha
      rcases List.mem_append.mp ha with ha' | haz
      · exact hmem a ha'
      · have : a = z := by simpa using haz
        subst this
        rw [hnotmem a hznotys]
        simp [heapFree]
    · intro a ha
      have haz : a ≠ z := fun e => ha (by simp [e])
      have hays' : a ∉ ys' := fun m => ha (List.mem_append.mpr (Or.inl m))
      rw [hnotmem a hays']
      simp [heapFree, haz]

theorem thpool_jobqueue_empty_spec (s : QState α) (addrs : List Nat)
    (hWF : WFq s addrs) :
    ∃ s', thpool_jobqueue_empty s = some s' ∧
      s'.queue.head = none ∧ s'.queue.tail = none ∧ s'.queue.jobsN = 0 ∧
      (∀ a ∈ addrs, s'.heap a = none) ∧
      (∀ a, a ∉ addrs → s'.heap a = s.heap a) ∧
      WFq s' [] := by
  obtain ⟨hchain, hhead, htail, hlen, hnodup⟩ := hWF
  obtain ⟨hF, tlF, hloop, hmem, hnotmem⟩ :=
    thpool_jobqueue_empty_loop_spec addrs s.heap none addrs.getLast? hchain hnodup
  refine ⟨⟨hF, ⟨none, none, 0⟩⟩, ?_, rfl, rfl, rfl, hmem, hnotmem, ?_⟩
  · rw [thpool_jobqueue_empty]
    rw [hlen, htail]
    simp only [Int.toNat_natCast, Option.bind_eq_bind]
    rw [hloop]
    rfl
  · exact ⟨rfl, rfl, rfl, rfl, List.nodup_nil⟩

theorem enqOp_spec (rs : RunState α) (addrs : List Nat) (f a : α)
    (hWF : WFrun rs addrs) :
    ∃ rs', enqOp rs f a = some rs' ∧
      WFrun rs' (rs.nextAddr :: addrs) ∧
      pendingOldestFirst rs'.qs.heap (rs.nextAddr :: addrs) =
        pendingOldestFirst rs.qs.heap addrs ++ [(f, a)] := by
  obtain ⟨hWFq, hbound⟩ := hWF
  have hfresh : rs.nextAddr ∉ addrs := fun m => lt_irrefl _ (hbound _ m)
  obtain ⟨hchain, hhead, htail, hlen, hnodup⟩ := hWFq
  have hWFq0 : WFq (⟨heapUpdate rs.qs.heap rs.nextAddr
      ⟨f, a, none, none⟩, rs.qs.queue⟩ : QState α) addrs := by
    refine ⟨?_, hhead, htail, hlen, hnodup⟩
    show chainSeg _ none addrs none = true
    rw [chainSeg_heapUpdate_of_not_mem _ _ _ _ _ _ hfresh]
    exact hchain
  have hlook : (⟨heapUpdate rs.qs.heap rs.nextAddr
      ⟨f, a, none, none⟩, rs.qs.queue⟩ : QState α).heap rs.nextAddr
      = some ⟨f, a, none, none⟩ := by
    simp [heapUpdate]
  obtain ⟨s', hadd, hWF', hN', hpaynew, hpayold⟩ :=
    thpool_jobqueue_add_spec _ addrs rs.nextAddr _ hWFq0 hlook hfresh
  refine ⟨⟨s', rs.nextAddr + 1⟩, ?_, ⟨hWF', ?_⟩, ?_⟩
  · rw [enqOp, Option.bind_eq_bind, hadd]
    rfl
  · intro x hx
    rcases List.mem_cons.mp hx with rfl | hx'
    · exact Nat.lt_succ_self _
    · exact Nat.lt_succ_of_lt (hbound _ hx')
  · show pendingOldestFirst s'.heap (rs.nextAddr :: addrs) = _
    have hpay2 : ∀ x ∈ addrs, payloadAt s'.heap x = payloadAt rs.qs.heap x := by
      intro x hx
      rw [hpayold x hx]
      exact payloadAt_heapUpdate_of_ne _ (fun e => hfresh (e ▸ hx))
    unfold pendingOldestFirst
    rw [List.reverse_cons, List.filterMap_append]
    congr 1
    · exact List.filterMap_congr
        (fun x hx => hpay2 x (List.mem_reverse.mp hx))
    · simp only [List.filterMap_cons, List.filterMap_nil, hpaynew]

theorem deqOp_spec (s : QState α) (addrs : List Nat) (hWF : WFq s addrs) :
    (addrs = [] → deqOp s = none) ∧
    (∀ ys z, addrs = ys ++ [z] →
      ∃ fp s', deqOp s = some (fp, s') ∧
        payloadAt s.heap z = some fp ∧
        WFq s' ys ∧
        pendingOldestFirst s.heap addrs = fp :: pendingOldestFirst s'.heap ys) := by
  obtain ⟨hchain, hhead, htail, hlen, hnodup⟩ := hWF
  constructor
  · rintro rfl
    have htl : s.queue.tail = none := by simpa using htail
    simp [deqOp, thpool_jobqueue_peek, htl]
  · rintro ys z rfl
    have htailz : s.queue.tail = some z := by
      rw [htail, List.getLast?_concat]
    have hchain' := hchain
    rw [chainFrom, chainSeg_append, Bool.and_eq_true] at hchain'
    obtain ⟨hA, hB⟩ := hchain'
    rw [lastLink_none] at hB
    obtain ⟨jz, hjz, hjzprev, hjznext, -⟩ := chainSeg_cons_elim hB
    have hznotys : z ∉ ys := by
      rw [List.nodup_append] at hnodup
      intro hmem
      exact hnodup.2.2 hmem (List.mem_singleton_self z)
    obtain ⟨-, hrem⟩ :=
      thpool_jobqueue_removelast_spec s (ys ++ [z])
        ⟨hchain, hhead, htail, hlen, hnodup⟩
    obtain ⟨s1, hremeq, hWF1, hN1, hpay1⟩ := hrem (by simp)
    rw [List.dropLast_concat] at hWF1
    refine ⟨(jz.function, jz.arg), ⟨heapFree s1.heap z, s1.queue⟩, ?_, ?_, ?_, ?_⟩
    · rw [deqOp]
      simp only [thpool_jobqueue_peek, htailz, Option.bind_eq_bind,
        Option.some_bind, hjz, hremeq]
    · simp [payloadAt, hjz]
    · obtain ⟨hchain1, hhead1, htail1, hlen1, hnodup1⟩ := hWF1
      refine ⟨?_, hhead1, htail1, hlen1, hnodup1⟩
      show chainSeg _ none ys none = true
      rw [chainSeg_heapFree_of_not_mem _ _ _ _ _ hznotys]
      exact hchain1
    · have hpayz : ∀ x ∈ ys, payloadAt (heapFree s1.heap z) x
          = payloadAt s.heap x := by
        intro x hx
        have hxz : x ≠ z := fun e => hznotys (e ▸ hx)
        rw [payloadAt_heapFree_of_ne hxz]
        exact hpay1 x
      unfold pendingOldestFirst
      rw [List.reverse_append]
      simp only [List.reverse_cons, List.reverse_nil, List.nil_append,
        List.cons_append, List.filterMap_cons]
      simp only [show payloadAt s.heap z = some (jz.function, jz.arg) by
        simp [payloadAt, hjz]]
      congr 1
      exact (List.filterMap_congr
        (fun x hx => hpayz x (List.mem_reverse.mp hx))).symm

theorem runOps_pending (ops : List (Op α)) :
    ∀ (rs : RunState α) (addrs : List Nat) (outs : List (α × α))
      (rs' : RunState α),
      WFrun rs addrs →
      runOps ops rs = some (outs, rs') →
      ∃ addrs', WFrun rs' addrs' ∧
        outs ++ pendingOldestFirst rs'.qs.heap addrs' =
          pendingOldestFirst rs.qs.heap addrs ++ enqueuedList ops := by
  induction ops with
  | nil =>
    intro rs addrs outs rs' hWF hrun
    simp only [runOps, Option.some_inj, Prod.mk.injEq] at hrun
    obtain ⟨rfl, rfl⟩ := hrun
    exact ⟨addrs, hWF, by simp [enqueuedList]⟩
  | cons op ops ih =>
    cases op with
    | enq f a =>
      intro rs addrs outs rs' hWF hrun
      obtain ⟨rs1, henq, hWF1, hpend⟩ := enqOp_spec rs addrs f a hWF
      rw [runOps, Option.bind_eq_bind, henq, Option.some_bind] at hrun
      obtain ⟨addrs', hWF', heq⟩ := ih rs1 _ outs rs' hWF1 hrun
      refine ⟨addrs', hWF', ?_⟩
      rw [heq, hpend]
      simp [enqueuedList]
    | deq =>
      intro rs addrs outs rs' hWF hrun
      obtain ⟨hempty, hnonempty⟩ := deqOp_spec rs.qs addrs hWF.1
      rcases List.eq_nil_or_concat addrs with rfl | ⟨ys, z, haddrs⟩
      · rw [runOps, Option.bind_eq_bind, hempty rfl] at hrun
        simp at hrun
      · simp only [List.concat_eq_append] at haddrs
        subst haddrs
        obtain ⟨fp, s1, hdeq, hpayz, hWF1q, hpend⟩ := hnonempty ys z rfl
        rw [runOps, Option.bind_eq_bind, hdeq, Option.some_bind,
          Option.bind_eq_bind] at hrun
        cases hrest : runOps ops ⟨s1, rs.nextAddr⟩ with
        | none => rw [hrest] at hrun; simp at hrun
        | some r =>
          rw [hrest, Option.some_bind, Option.some_inj, Prod.mk.injEq] at hrun
          obtain ⟨rfl, rfl⟩ := hrun
          have hbound1 : ∀ x ∈ ys, x < rs.nextAddr := fun x hx =>
            hWF.2 x (List.mem_append.mpr (Or.inl hx))
          obtain ⟨addrs', hWF', heq⟩ :=
            ih ⟨s1, rs.nextAddr⟩ ys r.1 r.2 ⟨hWF1q, hbound1⟩ hrest
          refine ⟨addrs', hWF', ?_⟩
          rw [hpend]
          show fp :: (r.1 ++ pendingOldestFirst r.2.qs.heap addrs') = _
          rw [heq]
          rfl

/-- The initial run state is well-formed on the empty chain. -/
theorem initRunState_WFrun : WFrun (initRunState α) [] :=
  ⟨⟨rfl, rfl, rfl, rfl, List.nodup_nil⟩, by simp⟩

theorem WFq_ends (s : QState α) (addrs : List Nat) (hWF : WFq s addrs) :
    0 ≤ s.queue.jobsN ∧
    ((s.queue.head = none ∧ s.queue.tail = none) ↔ s.queue.jobsN = 0) ∧
    ((∃ a, s.queue.head = some a ∧ s.queue.tail = some a) ↔
      s.queue.jobsN = 1) := by
  obtain ⟨hchain, hhead, htail, hlen, hnodup⟩ := hWF
  refine ⟨by rw [hlen]; positivity, ?_, ?_⟩
  · rw [hhead, htail, hlen]
    constructor
    · rintro ⟨h1, h2⟩
      cases addrs with
      | nil => rfl
      | cons a rest => simp at h1
    · intro h0
      have : addrs = [] := by
        cases addrs with
        | nil => rfl
        | cons a rest => simp at h0; omega
      subst this
      exact ⟨rfl, rfl⟩
  · rw [hhead, htail, hlen]
    constructor
    · rintro ⟨a, h1, h2⟩
      cases addrs with
      | nil => simp at h1
      | cons a' rest =>
        cases rest with
        | nil => rfl
        | cons b rest' =>
          simp only [List.head?_cons, Option.some_inj] at h1
          subst h1
          rw [List.getLast?_cons_cons] at h2
          have hmem : a' ∈ b :: rest' := by
            obtain ⟨hne, he⟩ := List.mem_getLast?_eq_getLast
              (show a' ∈ (b :: rest').getLast? from h2 ▸ rfl)
            exact he ▸ List.getLast_mem hne
          exact absurd hmem (List.nodup_cons.mp hnodup).1
    · intro h1
      have : addrs.length = 1 := by omega
      obtain ⟨a, rfl⟩ := List.length_eq_one.mp this
      exact ⟨a, rfl, rfl⟩

theorem thpool_jobqueue_peek_spec (s : QState α) (addrs : List Nat)
    (hWF : WFq s addrs) :
    thpool_jobqueue_peek s = s.queue.tail ∧
    ((thpool_jobqueue_peek s).isSome ↔ s.queue.jobsN ≠ 0) ∧
    (s.queue.jobsN ≠ 0 →
      ∃ job_p j, thpool_jobqueue_peek s = some job_p ∧ s.heap job_p = some j) ∧
    (s.queue.jobsN ≠ 0 → (deqOp s).isSome) ∧
    (s.queue.jobsN = 0 → deqOp s = none) := by
  obtain ⟨hempty, hnonempty⟩ := deqOp_spec s addrs hWF
  obtain ⟨hchain, hhead, htail, hlen, hnodup⟩ := hWF
  have haddrs0 : s.queue.jobsN = 0 ↔ addrs = [] := by
    rw [hlen]
    cases addrs with
    | nil => simp
    | cons a rest => simp only [List.length_cons]; push_cast; constructor <;> intro h <;> [omega; simp at h]
  refine ⟨rfl, ?_, ?_, ?_, ?_⟩
  · show s.queue.tail.isSome ↔ _
    rw [htail]
    constructor
    · intro h h0
      rw [haddrs0.mp h0] at h
      simp at h
    · intro h
      have hne : addrs ≠ [] := fun e => h (haddrs0.mpr e)
      simp [List.getLast?_isSome, hne]
  · intro hN
    rcases List.eq_nil_or_concat addrs with rfl | ⟨ys, z, haddr⟩
    · exact absurd (haddrs0.mpr rfl) hN
    simp only [List.concat_eq_append] at haddr
    subst haddr
    rw [chainFrom, chainSeg_append, Bool.and_eq_true] at hchain
    obtain ⟨-, hB⟩ := hchain
    obtain ⟨jz, hjz, -, -, -⟩ := chainSeg_cons_elim hB
    exact ⟨z, jz, by rw [thpool_jobqueue_peek, htail, List.getLast?_concat], hjz⟩
  · intro hN
    rcases List.eq_nil_or_concat addrs with rfl | ⟨ys, z, haddr⟩
    · exact absurd (haddrs0.mpr rfl) hN
    simp only [List.concat_eq_append] at haddr
    subst haddr
    obtain ⟨fp, s1, hdeq, -, -, -⟩ := hnonempty ys z rfl
    rw [hdeq]
    rfl
  · intro h0
    exact hempty (haddrs0.mp h0)

theorem spawnLoop_length (n : Nat) : ∀ k t, n - t = k → (spawnLoop n t).length = k := by
  intro k
  induction k with
  | zero =>
    intro t h0
    rw [spawnLoop.eq_def]
    have : ¬ t < n := by omega
    simp [this]
  | succ k ih =>
    intro t hk
    rw [spawnLoop.eq_def]
    have ht : t < n := by omega
    simp only [ht, if_true, List.length_cons]
    rw [ih (t + 1) (by omega)]

/-!
## Claim theorems
-/

/-- C5: for every integer `threadsN`, `thpool_init` clamps the requested
thread count to a minimum of 1 (`if (!threadsN || threadsN<1) threadsN=1`):
the stored `threadsN`, the length of the thread-handle array (one slot per
`pthread_create` call of the spawn loop), and the `nEmpty` initial value
all equal `max threadsN 1`. -/
theorem thpool_init_clamps_thread_count (threadsN : Int) (L : Ledger) :
    ∃ tp, (thpool_init threadsN true true true L).1 = some tp ∧
      tp.threadsN = max threadsN 1 ∧
      (tp.threads.length : Int) = max threadsN 1 ∧
      tp.threads = spawnLoop (max threadsN 1).toNat 0 ∧
      tp.nEmpty = max threadsN 1 := by
  have hclamp : (if threadsN = 0 ∨ threadsN < 1 then (1 : Int) else threadsN)
      = max threadsN 1 := by
    split
    · next h => rcases h with h | h <;> omega
    · next h => push_neg at h; omega
  refine ⟨{ threads := spawnLoop (max threadsN 1).toNat 0,
            threadsN := max threadsN 1,
            jobqueue := thpool_jobqueue_init,
            mutex := 1, nEmpty := max threadsN 1, nStored := 0 },
          ?_, rfl, ?_, rfl, rfl⟩
  · rw [thpool_init]
    simp only [hclamp]
    rfl
  · show ((spawnLoop (max threadsN 1).toNat 0).length : Int) = max threadsN 1
    rw [spawnLoop_length ((max threadsN 1).toNat) ((max threadsN 1).toNat) 0
      (by omega)]
    exact Int.toNat_of_nonneg (le_trans zero_le_one (le_max_right _ _))

/-- C6: `thpool_init` returns NULL exactly when one of its three
allocation steps (the pool struct, the thread-ID array, the job queue)
fails, and on every failing path the heap blocks allocated earlier on
that path have been freed again: the live ledger is exactly what it was
before the call. -/
theorem thpool_init_failure_frees_allocations (threadsN : Int)
    (okPool okThreads okQueue : Bool) (L : Ledger) :
    ((thpool_init threadsN okPool okThreads okQueue L).1 = none ↔
      (okPool = false ∨ okThreads = false ∨ okQueue = false)) ∧
    ((thpool_init threadsN okPool okThreads okQueue L).1 = none →
      ((thpool_init threadsN okPool okThreads okQueue L).2).live = L.live) := by
  cases okPool <;> cases okThreads <;> cases okQueue <;>
    simp [thpool_init, thpool_jobqueue_init_call, lmalloc, lfree]

/-- C8: `thpool_add_work` returns 0 whenever it returns to the caller;
when the job `malloc` fails it does not return an error code but ends the
process via `exit(1)` (after printing a diagnostic), a nonzero status. -/
theorem thpool_add_work_zero_or_exit (rs : RunState α) (function_p arg_p : α)
    (mallocOk : Bool) :
    (∀ code rs1, thpool_add_work rs function_p arg_p mallocOk
        = some (AddWorkOutcome.returned code rs1) → code = 0) ∧
    (mallocOk = false →
      thpool_add_work rs function_p arg_p mallocOk
        = some (AddWorkOutcome.exited 1) ∧ (1 : Int) ≠ 0) := by
  constructor
  · intro code rs1 h
    cases mallocOk with
    | false => simp [thpool_add_work] at h
    | true =>
      cases henq : enqOp rs function_p arg_p with
      | none => rw [thpool_add_work] at h; simp [henq] at h
      | some rs2 =>
        rw [thpool_add_work] at h
        simp [henq] at h
        omega
  · rintro rfl
    exact ⟨rfl, by decide⟩

/-- C9: after a successful `thpool_init` the three semaphores hold
exactly their initial values: `mutex` = 1, `nEmpty` = the clamped thread
count, `nStored` = 0 (`sem_init` calls of thpool.c:61-63). -/
theorem thpool_init_semaphore_values (threadsN : Int) (L : Ledger) :
    ∃ tp, (thpool_init threadsN true true true L).1 = some tp ∧
      tp.mutex = 1 ∧ tp.nEmpty = max threadsN 1 ∧ tp.nStored = 0 := by
  have hclamp : (if threadsN = 0 ∨ threadsN < 1 then (1 : Int) else threadsN)
      = max threadsN 1 := by
    split
    · next h => rcases h with h | h <;> omega
    · next h => push_neg at h; omega
  refine ⟨{ threads := spawnLoop (max threadsN 1).toNat 0,
            threadsN := max threadsN 1,
            jobqueue := thpool_jobqueue_init,
            mutex := 1, nEmpty := max threadsN 1, nStored := 0 },
          ?_, rfl, rfl, rfl⟩
  rw [thpool_init]
  simp only [hclamp]
  rfl

/-- C1: the job queue is strict FIFO.  `thpool_jobqueue_add` links each
new job at the head (newest end) and a worker dequeue
(`thpool_jobqueue_peek` followed by `thpool_jobqueue_removelast`, the
`deqOp` critical section) serves the tail (oldest end), so for every
sequence of enqueues and dequeues run from a freshly initialised queue,
the k-th dequeue hands out the k-th enqueued job: the list of dequeued
payloads is an initial segment of the list of enqueued payloads. -/
theorem jobqueue_strict_fifo (ops : List (Op α)) (outs : List (α × α))
    (rs' : RunState α)
    (h : runOps ops (initRunState α) = some (outs, rs')) :
    ∃ rest, enqueuedList ops = outs ++ rest := by
  obtain ⟨addrs', hWF', heq⟩ :=
    runOps_pending ops (initRunState α) [] outs rs' initRunState_WFrun h
  refine ⟨pendingOldestFirst rs'.qs.heap addrs', ?_⟩
  simpa [pendingOldestFirst] using heq.symm

/-- Witness for C1: enqueue (1,2) then (3,4), dequeue twice; the
dequeues hand out (1,2) then (3,4), in submission order. -/
theorem jobqueue_strict_fifo_witness :
    ∃ rs', runOps [Op.enq 1 2, Op.enq 3 4, Op.deq, Op.deq]
        (initRunState Nat) = some ([(1, 2), (3, 4)], rs') ∧
      ∃ rest, enqueuedList [Op.enq 1 2, Op.enq 3 4, Op.deq, Op.deq]
        = [(1, 2), (3, 4)] ++ rest :=
  ⟨_, rfl, jobqueue_strict_fifo [Op.enq 1 2, Op.enq 3 4, Op.deq, Op.deq]
    [(1, 2), (3, 4)] _ rfl⟩

/-- C2: every job-queue operation preserves the queue invariant.
`thpool_jobqueue_init` establishes it; `thpool_jobqueue_add` (for a
freshly allocated job node), `thpool_jobqueue_removelast` and
`thpool_jobqueue_empty` preserve it; and the invariant implies the three
spec facts: `jobsN` is ≥ 0 and equals the length of the linked chain
reachable from `head` (the `chainFrom` witness list), `head` and `tail`
are both null iff `jobsN` = 0, and they point to the same single node
iff `jobsN` = 1. -/
theorem jobqueue_ops_preserve_invariant :
    (∀ (h : Heap α), queueInvariant (⟨h, thpool_jobqueue_init⟩ : QState α)) ∧
    (∀ (s : QState α) (addrs : List Nat) (np : Nat) (nj : thpool_job_t α),
      WFq s addrs → s.heap np = some nj → np ∉ addrs →
      ∃ s', thpool_jobqueue_add s np = some s' ∧ queueInvariant s') ∧
    (∀ (s : QState α) (addrs : List Nat), WFq s addrs →
      ∃ r, thpool_jobqueue_removelast s = some r ∧ queueInvariant r.2) ∧
    (∀ (s : QState α) (addrs : List Nat), WFq s addrs →
      ∃ s', thpool_jobqueue_empty s = some s' ∧ queueInvariant s') ∧
    (∀ (s : QState α), queueInvariant s →
      0 ≤ s.queue.jobsN ∧
      (∃ addrs, chainFrom s.heap none addrs = true ∧
        s.queue.head = addrs.head? ∧ s.queue.tail = addrs.getLast? ∧
        s.queue.jobsN = (addrs.length : Int)) ∧
      ((s.queue.head = none ∧ s.queue.tail = none) ↔ s.queue.jobsN = 0) ∧
      ((∃ a, s.queue.head = some a ∧ s.queue.tail = some a) ↔
        s.queue.jobsN = 1)) := by
  refine ⟨?_, ?_, ?_, ?_, ?_⟩
  · intro h
    exact ⟨[], rfl, rfl, rfl, rfl, List.nodup_nil⟩
  · intro s addrs np nj hWF hnj hfresh
    obtain ⟨s', heq, hWF', -, -, -⟩ :=
      thpool_jobqueue_add_spec s addrs np nj hWF hnj hfresh
    exact ⟨s', heq, np :: addrs, hWF'⟩
  · intro s addrs hWF
    obtain ⟨hempty, hnonempty⟩ := thpool_jobqueue_removelast_spec s addrs hWF
    cases haddr : addrs with
    | nil =>
      subst haddr
      exact ⟨(-1, s), hempty rfl, [], hWF⟩
    | cons a rest =>
      obtain ⟨s', heq, hWF', -, -⟩ := hnonempty (by simp [haddr])
      exact ⟨(0, s'), heq, addrs.dropLast, hWF'⟩
  · intro s addrs hWF
    obtain ⟨s', heq, -, -, -, -, -, hWF'⟩ := thpool_jobqueue_empty_spec s addrs hWF
    exact ⟨s', heq, [], hWF'⟩
  · rintro s ⟨addrs, hWF⟩
    obtain ⟨h0, h1, h2⟩ := WFq_ends s addrs hWF
    exact ⟨h0, ⟨addrs, hWF.1, hWF.2.1, hWF.2.2.1, hWF.2.2.2.1⟩, h1, h2⟩

/-- Witness for C2: instantiate the add-preservation component at a
concrete empty queue with a fresh job node at address 0, and the
derived-facts component at the resulting one-element queue. -/
theorem jobqueue_ops_preserve_invariant_witness :
    WFq (⟨heapUpdate (fun _ => none) 0 ⟨5, 6, none, none⟩,
        thpool_jobqueue_init⟩ : QState Nat) [] ∧
    (∃ s', thpool_jobqueue_add
        (⟨heapUpdate (fun _ => none) 0 ⟨5, 6, none, none⟩,
          thpool_jobqueue_init⟩ : QState Nat) 0 = some s' ∧
      queueInvariant s') :=
  ⟨by decide,
   (jobqueue_ops_preserve_invariant (α := Nat)).2.1
     ⟨heapUpdate (fun _ => none) 0 ⟨5, 6, none, none⟩, thpool_jobqueue_init⟩
     [] 0 ⟨5, 6, none, none⟩ (by decide) (by decide) (by decide)⟩

/-- C3: on every well-formed queue state, `thpool_jobqueue_empty` frees
exactly the linked job nodes (each once — they leave the heap, so no
double free), touches no other allocation, never calls a job's function,
and leaves the canonical empty state `tail = head = NULL`, `jobsN = 0`;
on an already-empty chain the heap is untouched (nothing freed) and the
call still succeeds with the empty state. -/
theorem jobqueue_empty_drains_queue (s : QState α) (addrs : List Nat)
    (hWF : WFq s addrs) :
    ∃ s', thpool_jobqueue_empty s = some s' ∧
      s'.queue.tail = none ∧ s'.queue.head = none ∧ s'.queue.jobsN = 0 ∧
      (∀ a ∈ addrs, s'.heap a = none) ∧
      (∀ a, a ∉ addrs → s'.heap a = s.heap a) ∧
      (addrs = [] → s'.heap = s.heap) := by
  obtain ⟨s', heq, hh, ht, hN, hmem, hnotmem, -⟩ :=
    thpool_jobqueue_empty_spec s addrs hWF
  refine ⟨s', heq, ht, hh, hN, hmem, hnotmem, ?_⟩
  rintro rfl
  funext a
  exact hnotmem a (by simp)

/-- Witness for C3: draining the concrete one-job queue frees node 0 and
leaves the canonical empty state. -/
theorem jobqueue_empty_drains_queue_witness :
    WFq (⟨heapUpdate (fun _ => none) 0 ⟨5, 6, none, none⟩,
        ⟨some 0, some 0, 1⟩⟩ : QState Nat) [0] ∧
    ∃ s', thpool_jobqueue_empty
        (⟨heapUpdate (fun _ => none) 0 ⟨5, 6, none, none⟩,
          ⟨some 0, some 0, 1⟩⟩ : QState Nat) = some s' ∧
      s'.queue.tail = none ∧ s'.queue.head = none ∧ s'.queue.jobsN = 0 ∧
      (∀ a ∈ [0], s'.heap a = none) ∧
      (∀ a, a ∉ [0] → s'.heap a =
        (⟨heapUpdate (fun _ => none) 0 ⟨5, 6, none, none⟩,
          ⟨some 0, some 0, 1⟩⟩ : QState Nat).heap a) ∧
      ([0] = ([] : List Nat) → s'.heap =
        (⟨heapUpdate (fun _ => none) 0 ⟨5, 6, none, none⟩,
          ⟨some 0, some 0, 1⟩⟩ : QState Nat).heap) := by
  refine ⟨by decide, ?_⟩
  exact jobqueue_empty_drains_queue
    ⟨heapUpdate (fun _ => none) 0 ⟨5, 6, none, none⟩, ⟨some 0, some 0, 1⟩⟩
    [0] (by decide)

/-- C4: on well-formed states, `thpool_jobqueue_removelast` returns the
local error code -1 (leaving the queue untouched) exactly when the size
is 0; when the size is ≥ 1 it removes the oldest (tail) item,
decrements `jobsN` by one, relinks correctly (the remaining chain
`addrs.dropLast` is well formed again: for size 1 both ends become null,
for size > 1 the head is kept and the second-oldest node becomes the
tail), and returns 0. -/
theorem removelast_error_code_and_relink (s : QState α) (addrs : List Nat)
    (hWF : WFq s addrs) :
    (thpool_jobqueue_removelast s = some (-1, s) ↔ s.queue.jobsN = 0) ∧
    (1 ≤ s.queue.jobsN →
      ∃ s', thpool_jobqueue_removelast s = some (0, s') ∧
        s'.queue.jobsN = s.queue.jobsN - 1 ∧
        WFq s' addrs.dropLast ∧
        (s.queue.jobsN = 1 → s'.queue.head = none ∧ s'.queue.tail = none) ∧
        (2 ≤ s.queue.jobsN → s'.queue.head = s.queue.head ∧
          s'.queue.tail = addrs.dropLast.getLast? ∧
          addrs.dropLast ≠ [])) := by
  have hlen := hWF.2.2.2.1
  have hhead := hWF.2.1
  obtain ⟨hempty, hnonempty⟩ := thpool_jobqueue_removelast_spec s addrs hWF
  have haddrs0 : s.queue.jobsN = 0 ↔ addrs = [] := by
    rw [hlen]
    cases addrs with
    | nil => simp
    | cons a rest =>
      simp only [List.length_cons]
      push_cast
      constructor
      · intro h; omega
      · intro h; simp at h
  constructor
  · constructor
    · intro heq
      by_contra hN
      obtain ⟨s', heq', -, -, -⟩ :=
        hnonempty (fun e => hN (haddrs0.mpr e))
      rw [heq'] at heq
      have : (0 : Int) = -1 := congrArg (fun r => (r.getD (0, s)).1) heq
      omega
    · intro h0
      exact hempty (haddrs0.mp h0)
  · intro h1
    have hne : addrs ≠ [] := fun e => by
      rw [haddrs0.mpr e] at h1; omega
    obtain ⟨s', heq, hWF', hN', -⟩ := hnonempty hne
    refine ⟨s', heq, hN', hWF', ?_, ?_⟩
    · intro hN1
      have : addrs.length = 1 := by omega
      obtain ⟨a, rfl⟩ := List.length_eq_one.mp this
      exact ⟨hWF'.2.1, hWF'.2.2.1⟩
    · intro hN2
      have hlen2 : 2 ≤ addrs.length := by
        rw [hlen] at hN2; exact_mod_cast hN2
      match addrs, hlen2 with
      | a0 :: a1 :: rest, _ =>
        refine ⟨?_, hWF'.2.2.1, by simp⟩
        rw [hWF'.2.1, hhead]
        rfl

/-- Witness for C4: a well-formed two-job queue (head node 1, tail
node 0); removing the last job returns 0 and leaves the well-formed
one-job queue. -/
theorem removelast_error_code_and_relink_witness :
    WFq (⟨fun a => if a = 1 then some ⟨5, 6, none, some 0⟩
          else if a = 0 then some ⟨7, 8, some 1, none⟩ else none,
        ⟨some 1, some 0, 2⟩⟩ : QState Nat) [1, 0] ∧
    ∃ s', thpool_jobqueue_removelast
        (⟨fun a => if a = 1 then some ⟨5, 6, none, some 0⟩
            else if a = 0 then some ⟨7, 8, some 1, none⟩ else none,
          ⟨some 1, some 0, 2⟩⟩ : QState Nat) = some (0, s') ∧
      WFq s' [1] := by
  refine ⟨by decide, ?_⟩
  obtain ⟨-, h⟩ := removelast_error_code_and_relink
    (⟨fun a => if a = 1 then some ⟨5, 6, none, some 0⟩
        else if a = 0 then some ⟨7, 8, some 1, none⟩ else none,
      ⟨some 1, some 0, 2⟩⟩ : QState Nat) [1, 0] (by decide)
  obtain ⟨s', heq, -, hWF', -, -⟩ := h (by decide)
  exact ⟨s', heq, hWF'⟩

/-- C7: in the worker consume loop, whenever `sem_wait(&nStored)` returns
and the re-read of the keep-alive flag observes false (the forced wakeup
during shutdown), the iteration performs no queue operation and runs no
job, and the loop exits: given that the flag never flips back to true,
the whole remaining run emits exactly the one `waited` event and leaves
the queue state untouched. -/
theorem worker_exits_after_keepalive_false (ka : Nat → Bool)
    (hmono : ∀ i j, i ≤ j → ka i = false → ka j = false)
    (fuel i : Nat) (s : QState α) (evs : List (WEv α)) (s1 : QState α)
    (hwhile : ka i = true) (hwake : ka (i + 1) = false)
    (hrun : thpool_thread_do_loop ka fuel i s = some (evs, s1)) :
    evs = [WEv.waited] ∧ s1 = s := by
  cases fuel with
  | zero => simp [thpool_thread_do_loop, hwhile] at hrun
  | succ fuel =>
    have hstop : ka (i + 2) = false := hmono (i + 1) (i + 2) (by omega) hwake
    have hinner : thpool_thread_do_loop ka fuel (i + 2) s = some ([], s) := by
      cases fuel <;> simp [thpool_thread_do_loop, hstop]
    simp only [thpool_thread_do_loop, hwhile, hwake, Bool.true_eq_false,
      if_false, if_pos rfl, hinner, Option.map_some'] at hrun
    obtain ⟨rfl, rfl⟩ := Prod.mk.injEq .. ▸ (Option.some_inj.mp hrun)
    exact ⟨rfl, rfl⟩

/-- Witness for C7: the flag reads true at the loop check, false after
the wait; the loop run from an empty queue emits one `waited` event, does
not touch the queue and exits. -/
theorem worker_exits_after_keepalive_false_witness :
    ∃ evs s1, thpool_thread_do_loop (fun n => decide (n = 0)) 2 0
        (⟨fun _ => none, thpool_jobqueue_init⟩ : QState Nat)
        = some (evs, s1) ∧
      evs = [WEv.waited] ∧
      s1 = (⟨fun _ => none, thpool_jobqueue_init⟩ : QState Nat) :=
  ⟨_, _, rfl,
    worker_exits_after_keepalive_false (fun n => decide (n = 0))
      (by
        intro i j hij hf
        simp only [decide_eq_false_iff_not] at hf ⊢
        omega)
      2 0 (⟨fun _ => none, thpool_jobqueue_init⟩ : QState Nat) _ _
      (by decide) (by decide) rfl⟩

/-- C10: `thpool_jobqueue_peek` returns the tail pointer, which on
well-formed states is non-null iff `jobsN` ≠ 0; the worker dereferences
the peek result without a null check (reading `function` and `arg`), and
that whole critical section (`deqOp`) succeeds exactly when the queue is
non-empty — on an empty queue it faults, so that branch must be
unreachable when the worker holds the lock. -/
theorem peek_returns_tail_and_worker_deref_safety (s : QState α)
    (addrs : List Nat) (hWF : WFq s addrs) :
    thpool_jobqueue_peek s = s.queue.tail ∧
    ((thpool_jobqueue_peek s).isSome ↔ s.queue.jobsN ≠ 0) ∧
    (s.queue.jobsN ≠ 0 →
      ∃ job_p j, thpool_jobqueue_peek s = some job_p ∧
        s.heap job_p = some j) ∧
    (s.queue.jobsN ≠ 0 → (deqOp s).isSome) ∧
    (s.queue.jobsN = 0 → deqOp s = none) :=
  thpool_jobqueue_peek_spec s addrs hWF

/-- Witness for C10 at a concrete one-job queue. -/
theorem peek_returns_tail_and_worker_deref_safety_witness :
    WFq (⟨heapUpdate (fun _ => none) 0 ⟨7, 8, none, none⟩,
        ⟨some 0, some 0, 1⟩⟩ : QState Nat) [0] ∧
    (thpool_jobqueue_peek
        (⟨heapUpdate (fun _ => none) 0 ⟨7, 8, none, none⟩,
          ⟨some 0, some 0, 1⟩⟩ : QState Nat) = some 0 ∧
      (deqOp (⟨heapUpdate (fun _ => none) 0 ⟨7, 8, none, none⟩,
          ⟨some 0, some 0, 1⟩⟩ : QState Nat)).isSome) := by
  refine ⟨by decide, rfl, ?_⟩
  exact (peek_returns_tail_and_worker_deref_safety
    ⟨heapUpdate (fun _ => none) 0 ⟨7, 8, none, none⟩, ⟨some 0, some 0, 1⟩⟩
    [0] (by decide)).2.2.2.1 (by decide)

/-- Witness for C6: with the thread-ID allocation failing, `thpool_init`
returns NULL and the ledger is back to its initial (empty) live set: the
pool struct allocated before the failure was freed. -/
theorem thpool_init_failure_frees_allocations_witness :
    (thpool_init 3 true false true ⟨[]⟩).1 = none ∧
    ((thpool_init 3 true false true ⟨[]⟩).2).live = ([] : List CPtr) := by
  refine ⟨rfl, ?_⟩
  exact (thpool_init_failure_frees_allocations 3 true false true ⟨[]⟩).2 rfl

/-- Witness for C8: with the job `malloc` failing, `thpool_add_work`
ends in `exit(1)` — a nonzero status — instead of returning. -/
theorem thpool_add_work_zero_or_exit_witness :
    thpool_add_work (initRunState Nat) 1 2 false
        = some (AddWorkOutcome.exited 1) ∧ (1 : Int) ≠ 0 :=
  (thpool_add_work_zero_or_exit (initRunState Nat) 1 2 false).2 rfl

end Thpool
